import Mathlib

/-!
Verification development for the spv2 data-preparation pipeline
(`dataprep2.py`).  Python functions are shallowly embedded as Lean
definitions: floating point numbers become `ℚ`, numpy arrays become
lists, generators become list-producing functions, and external
inputs (regular expressions, the `stringmatch` C extension, the
random number generator, Unicode normalization) become explicit
function parameters.  Each definition is translated from the source
file; theorems at the end settle the specification claims.
-/

namespace Spv2

/-! ## Percentile functions (`percentile_function_from_values_and_counts`) -/

/-- Running cumulative sums starting from accumulator `acc`
(models `numpy.cumsum` together with the running total). -/
def cumsumFrom (acc : ℚ) : List ℚ → List ℚ
  | [] => []
  | c :: cs => (acc + c) :: cumsumFrom (acc + c) cs

/-- `counts.cumsum()` from the source. -/
def cumsum (l : List ℚ) : List ℚ := cumsumFrom 0 l

/-- `numpy.searchsorted(xs, v)` with the default `side='left'` on a sorted
array: the first index whose element is `≥ v`.  `none` stands for the
`-inf` sentinel the source prepends, which is never `≥ v`. -/
def searchsorted_left : List (Option ℚ) → ℚ → Nat
  | [], _ => 0
  | none :: rest, v => 1 + searchsorted_left rest v
  | some x :: rest, v => if v ≤ x then 0 else 1 + searchsorted_left rest v

/-- `numpy.clip(i, lo, hi)` on indices. -/
def clipNat (i lo hi : Nat) : Nat := min (max i lo) hi

/-- `percentile_function_from_values_and_counts(values, counts)` applied to a
query `v` (dataprep2.py lines 74-95): normalize the cumulative counts by the
total, prepend `0.0` to the cumulative array and `-inf` to the values, then
return the average of the cumulative fractions at the clipped insertion
index and the index before it. -/
def percentile_function_from_values_and_counts
    (values counts : List ℚ) (v : ℚ) : ℚ :=
  let total := (cumsum counts).getLastD 0
  let cum_array := (0 : ℚ) :: (cumsum counts).map (· / total)
  let cum_values := none :: values.map some
  let idx := clipNat (searchsorted_left cum_values v) 1 (cum_values.length - 1)
  (cum_array.getD idx 0 + cum_array.getD (idx - 1) 0) / 2

/-- Adjacent deduplication of a sorted list (the deduplication performed by
`numpy.unique`). -/
def dedupSorted : List ℚ → List ℚ
  | [] => []
  | [x] => [x]
  | x :: y :: rest => if x = y then dedupSorted (y :: rest) else x :: dedupSorted (y :: rest)

/-- `percentile_function_from_values(values)` (dataprep2.py lines 104-106):
`numpy.unique` with counts, then the percentile function above. -/
def percentile_function_from_values (values : List ℚ) (v : ℚ) : ℚ :=
  let uniq := dedupSorted (values.mergeSort (fun a b => decide (a ≤ b)))
  let counts := uniq.map (fun u => ((values.count u : ℕ) : ℚ))
  percentile_function_from_values_and_counts uniq counts v

/-- Total mass of the histogram at values `≤ v` ("inclusive" cumulative
frequency, as the spec describes it). -/
def mass_at_most (values counts : List ℚ) (v : ℚ) : ℚ :=
  (((values.zip counts).filter (fun p => decide (p.1 ≤ v))).map Prod.snd).sum

/-- Total mass of the histogram at values `< v` ("exclusive" cumulative
frequency, as the spec describes it). -/
def mass_below (values counts : List ℚ) (v : ℚ) : ℚ :=
  (((values.zip counts).filter (fun p => decide (p.1 < v))).map Prod.snd).sum

/-! ## Fuzzy matching (`find_string_in_page`, dataprep2.py lines 658-700)

The `stringmatch.match` C extension is external to the repository; it is
modelled as a function from the scan offset to the (cost, start, end) result
it returns for the corresponding page-text suffix.  Unicode normalization
(`normalize`: lowercase + NFKC) is likewise modelled as an explicit
function parameter `norm`. -/

/-- The result record of `stringmatch.match(query, page_text[offset:])`:
edit cost and the matched span, relative to the suffix. -/
structure StringMatchResult where
  cost : Nat
  start_pos : Nat
  end_pos : Nat
deriving DecidableEq

/-- The transient fuzzy-match record (`FuzzyMatch` namedtuple in
`labeled_tokens_file`). -/
structure FuzzyMatch where
  page_number : Nat
  first_token_index : Nat
  one_past_last_token_index : Nat
  cost : Nat
  matched_string : String
  average_font_size : ℚ
deriving DecidableEq

/-- Per-page data consumed by the matcher: the concatenated page text's
length, the map from character offset to token index
(`start_pos_to_token_index`), the token count, the token texts, the token
font sizes, and the external `stringmatch.match` oracle (query ↦ offset ↦
result). -/
structure PageData where
  page_len : Nat
  s2t : Nat → Option Nat
  token_count : Nat
  tokens : List String
  font_sizes : List ℚ
  oracle : String → Nat → StringMatchResult

/-- The per-page cost budget `(len(string) - string.count(" ")) // 5` for a
(already normalized) query string. -/
def string_match_budget (s : String) : Nat :=
  (s.length - s.toList.count ' ') / 5

/-- Snap a match's start position backward to the nearest token start
(dataprep2.py lines 671-676).  The Python loop treats both `None` and a
found index `0` as falsy and keeps scanning downward; if nothing truthy is
found by position 0 the result defaults to `0`. -/
def snap_start (s2t : Nat → Option Nat) : Nat → Nat
  | 0 => match s2t 0 with
         | some (k+1) => k+1
         | _ => 0
  | (s+1) => match s2t (s+1) with
             | some (k+1) => k+1
             | _ => snap_start s2t s

/-- Snap a match's end position forward to the nearest token start
(dataprep2.py lines 678-684), scanning `fuel = page_len - e` positions
upward; `None` at every position defaults to `token_count`. -/
def snap_end_aux (s2t : Nat → Option Nat) (token_count : Nat) : Nat → Nat → Nat
  | 0, _ => token_count
  | fuel+1, e => match s2t e with
                 | some k => k
                 | none => snap_end_aux s2t token_count fuel (e+1)

/-- Snap the end position: first known token start at or after `e`,
else `token_count`. -/
def snap_end (p : PageData) (e : Nat) : Nat :=
  snap_end_aux p.s2t p.token_count (p.page_len - e) e

/-- `" ".join(tokens[a:b])`. -/
def join_tokens (tokens : List String) (a b : Nat) : String :=
  String.intercalate " " ((tokens.drop a).take (b - a))

/-- `np.average(font_sizes[a:b])` as an exact rational mean. -/
def average_font_size_of (font_sizes : List ℚ) (a b : Nat) : ℚ :=
  let slice := (font_sizes.drop a).take (b - a)
  slice.sum / (slice.length : ℚ)

/-- Build the `FuzzyMatch` yielded at `offset` for the match result `fm`. -/
def mk_fuzzy_match (p : PageData) (page_number : Nat)
    (fm : StringMatchResult) (offset : Nat) : FuzzyMatch :=
  let fti := snap_start p.s2t (fm.start_pos + offset)
  let opti := snap_end p (fm.end_pos + offset)
  { page_number := page_number
    first_token_index := fti
    one_past_last_token_index := opti
    cost := fm.cost
    matched_string := join_tokens p.tokens fti opti
    average_font_size := average_font_size_of p.font_sizes fti opti }

/-- The scan loop of `find_string_in_page` (dataprep2.py lines 661-700):
while the offset is inside the page, ask the matcher for the cheapest match
of the query in the suffix; stop the page as soon as its cost exceeds the
budget, else yield the snapped match and advance by the match's end
position.  `fuel` bounds the number of loop iterations (the Python `while`
loop can only run forever if the oracle returns `end_pos = 0`). -/
def find_loop (p : PageData) (page_number : Nat)
    (matcher : Nat → StringMatchResult) (budget : Nat) :
    Nat → Nat → List FuzzyMatch
  | 0, _ => []
  | fuel+1, offset =>
    if offset < p.page_len then
      if (matcher offset).cost > budget then []
      else
        mk_fuzzy_match p page_number (matcher offset) offset ::
          find_loop p page_number matcher budget fuel
            (offset + (matcher offset).end_pos)
    else []

/-- `find_string_in_page(string)` for a page: normalize the query, then run
the scan loop from offset 0 with the budget computed from the normalized
query. -/
def find_string_in_page (norm : String → String) (p : PageData)
    (page_number : Nat) (query : String) : List FuzzyMatch :=
  let s := norm query
  find_loop p page_number (p.oracle s) (string_match_budget s) (p.page_len + 1) 0

/-- Reference scan without the early exit: visits the same offsets, skips
over-budget candidates instead of stopping, and yields every within-budget
candidate it sees.  Used to state that the early exit misses nothing. -/
def scan_all_within_budget (p : PageData) (page_number : Nat)
    (matcher : Nat → StringMatchResult) (budget : Nat) :
    Nat → Nat → List FuzzyMatch
  | 0, _ => []
  | fuel+1, offset =>
    if offset < p.page_len then
      if (matcher offset).cost > budget then
        scan_all_within_budget p page_number matcher budget fuel
          (offset + (matcher offset).end_pos)
      else
        mk_fuzzy_match p page_number (matcher offset) offset ::
          scan_all_within_budget p page_number matcher budget fuel
            (offset + (matcher offset).end_pos)
    else []

/-! ## Weak-supervision labeler, per-document decision
(`labeled_tokens_file`, dataprep2.py lines 543-841)

XML parsing and the regex tokenizer are external text processing; an
author `name` node is modelled by the already tokenized-and-joined
given-names and surname strings, an `article-title` node by its
tokenized-and-joined inner text, and `initials` by a function parameter. -/

/-- Label constants (`POTENTIAL_LABELS = [None, "title", "author"]`). -/
def NONE_LABEL : Nat := 0

/-- Index of `"title"` in `POTENTIAL_LABELS`. -/
def TITLE_LABEL : Nat := 1

/-- Index of `"author"` in `POTENTIAL_LABELS`. -/
def AUTHOR_LABEL : Nat := 2

/-- `MAX_PAGE_COUNT` from dataprep2.py line 366. -/
def MAX_PAGE_COUNT : Nat := 3

/-- A gold author as extracted from one nxml `name` node. -/
structure AuthorName where
  given_names : String
  surnames : String
deriving DecidableEq

/-- The reference metadata read from a document's nxml file: the inner
texts of the `article-title` nodes and the author `name` nodes. -/
structure NxmlMeta where
  titles : List String
  author_nodes : List AuthorName

/-- `trim_punctuation` (dataprep2.py lines 492-495): strip leading and
trailing `.` characters, then strip surrounding whitespace. -/
def trim_punctuation (s : String) : String :=
  let cs := s.toList.dropWhile (· = '.')
  let cs := (cs.reverse.dropWhile (· = '.')).reverse
  (String.mk cs).trim

/-- Author extraction loop (dataprep2.py lines 586-594): keep a node only
if its surname string is nonempty. -/
def extract_gold_authors (nodes : List AuthorName) : List AuthorName :=
  nodes.filter (fun a => decide (0 < a.surnames.length))

/-- The set of surface-form variants generated for one gold author
(dataprep2.py lines 722-739); the Python `set` is modelled as a
deduplicated list.  `initials` is the regex-based helper, passed in as a
parameter (name string and separator ↦ joined initials). -/
def author_variants (initials : String → String → String)
    (a : AuthorName) : List String :=
  if a.given_names.length = 0 then [a.surnames]
  else
    [ a.given_names ++ " " ++ a.surnames,
      initials a.given_names " " ++ " " ++ a.surnames,
      initials a.given_names " . " ++ " . " ++ a.surnames,
      initials a.given_names "" ++ " " ++ a.surnames,
      a.surnames ++ " , " ++ a.given_names,
      a.given_names.take 1 ++ " " ++ a.surnames,
      a.given_names.take 1 ++ " . " ++ a.surnames ].dedup

/-- `title_match_sort_key` (cost, descending average font size, first
token index) as a strict lexicographic comparison. -/
def title_key_lt (a b : FuzzyMatch) : Bool :=
  if a.cost ≠ b.cost then a.cost < b.cost
  else if a.average_font_size ≠ b.average_font_size then
    decide (b.average_font_size < a.average_font_size)
  else a.first_token_index < b.first_token_index

/-- `cost_author_match` (cost, descending matched-string length, descending
average font size, first token index) as a strict lexicographic
comparison. -/
def author_key_lt (a b : FuzzyMatch) : Bool :=
  if a.cost ≠ b.cost then a.cost < b.cost
  else if a.matched_string.length ≠ b.matched_string.length then
    b.matched_string.length < a.matched_string.length
  else if a.average_font_size ≠ b.average_font_size then
    decide (b.average_font_size < a.average_font_size)
  else a.first_token_index < b.first_token_index

/-- Python's `min(xs, key=...)`: the first element with minimal key, `none`
on an empty list (where Python would raise). -/
def min_by (lt : α → α → Bool) : List α → Option α
  | [] => none
  | x :: xs => some (xs.foldl (fun acc y => if lt y acc then y else acc) x)

/-- Title resolution across pages (dataprep2.py lines 706-716): per page
the minimum under the title sort key, across pages keep the strictly
cheaper match. -/
def best_title_match (norm : String → String) (pages : List PageData)
    (gold_title : String) : Option FuzzyMatch :=
  pages.enum.foldl
    (fun best pnp =>
      match min_by title_key_lt (find_string_in_page norm pnp.2 pnp.1 gold_title) with
      | none => best
      | some m =>
        match best with
        | none => some m
        | some b => if m.cost < b.cost then some m else some b)
    none

/-- All fuzzy matches collected for one gold author across the effective
pages and all surface-form variants (dataprep2.py lines 722-742). -/
def author_matches_raw (norm : String → String)
    (initials : String → String → String) (pages : List PageData)
    (a : AuthorName) : List FuzzyMatch :=
  pages.enum.flatMap (fun pnp =>
    (author_variants initials a).flatMap (fun v =>
      find_string_in_page norm pnp.2 pnp.1 v))

/-- The distinct page numbers on which an author has matches
(`set(match.page_number for match in ...)`). -/
def pages_with_matches (ms : List FuzzyMatch) : List Nat :=
  (ms.map (·.page_number)).dedup

/-- Intersection of the per-author page sets (dataprep2.py lines
746-749). -/
def common_author_pages (lists : List (List FuzzyMatch)) : List Nat :=
  match lists with
  | [] => []
  | l :: ls =>
    ls.foldl (fun acc ms => acc.filter (fun x => decide (x ∈ pages_with_matches ms)))
      (pages_with_matches l)

/-- `min` of a nonempty list of page numbers (Python `min`); 0 on empty. -/
def min_nat_list : List Nat → Nat
  | [] => 0
  | x :: xs => xs.foldl min x

/-- Direct range write `labels[a:b] = lab` over a label list. -/
def write_range (l : List Nat) (a b lab : Nat) : List Nat :=
  l.mapIdx (fun i x => if a ≤ i ∧ i < b then lab else x)

/-- Per-page label assignment (dataprep2.py lines 820-828): start from
zeros, write the title span if the title match is on this page, then write
each author span in order (last write wins). -/
def page_labels (title_match : FuzzyMatch) (author_best : List FuzzyMatch)
    (page_number token_count : Nat) : List Nat :=
  let l0 := List.replicate token_count NONE_LABEL
  let l1 := if title_match.page_number = page_number then
      write_range l0 title_match.first_token_index
        title_match.one_past_last_token_index TITLE_LABEL
    else l0
  author_best.foldl
    (fun l m =>
      if m.page_number = page_number then
        write_range l m.first_token_index m.one_past_last_token_index AUTHOR_LABEL
      else l)
    l1

/-- The committed output for one document of the labeled artifact. -/
structure LabeledDoc where
  doc_id : String
  doc_sha : String
  gold_title : String
  gold_authors : List AuthorName
  labels : List (List Nat)

/-- The per-document body of `labeled_tokens_file` (dataprep2.py lines
543-841): every `continue` becomes `none`, the commit point becomes
`some`.  `nxml = none` models a missing or undecodable nxml file. -/
def label_document (norm : String → String)
    (initials : String → String → String) (nxml : Option NxmlMeta)
    (doc_id doc_sha : String) (pages : List PageData) : Option LabeledDoc :=
  match nxml with
  | none => none
  | some meta =>
    match meta.titles with
    | [t] =>
      let gold_title := trim_punctuation t
      if gold_title.length ≤ 4 then none
      else
        let gold_authors := extract_gold_authors meta.author_nodes
        if gold_authors.length = 0 then none
        else if gold_authors.length ≠ meta.author_nodes.length then none
        else if gold_title = "" ∨ gold_authors = [] then none
        else
          let eff_pages := pages.take MAX_PAGE_COUNT
          let title_match := best_title_match norm eff_pages gold_title
          let amatches := gold_authors.map (author_matches_raw norm initials eff_pages)
          let common := common_author_pages amatches
          if common = [] then none
          else
            let page := min_nat_list common
            let filtered := amatches.map (fun ms =>
              ms.filter (fun m => decide (m.page_number = page)))
            let abest := filtered.map (min_by author_key_lt)
            match title_match with
            | none => none
            | some tm =>
              if abest.any (fun o => o.isNone) then none
              else
                some { doc_id := doc_id
                       doc_sha := doc_sha
                       gold_title := gold_title
                       gold_authors := gold_authors
                       labels := eff_pages.enum.map (fun pnp =>
                         page_labels tm (abest.reduceOption) pnp.1 pnp.2.token_count) }
    | _ => none

/-- The title half of the claimed commit condition: the nxml has exactly
one title node, the trimmed gold title is longer than 4 characters, and the
fuzzy matcher finds it (within the cost budget) on some effective page. -/
def title_resolvable (norm : String → String) (nxml : Option NxmlMeta)
    (pages : List PageData) : Prop :=
  ∃ meta t, nxml = some meta ∧ meta.titles = [t] ∧
    4 < (trim_punctuation t).length ∧
    ∃ pnp ∈ (pages.take MAX_PAGE_COUNT).enum,
      find_string_in_page norm pnp.2 pnp.1 (trim_punctuation t) ≠ []

/-- The author half of the claimed commit condition: at least one gold
author was extracted, no author node was dropped for an empty surname, and
all authors share at least one common page of matches. -/
def authors_resolvable (norm : String → String)
    (initials : String → String → String) (nxml : Option NxmlMeta)
    (pages : List PageData) : Prop :=
  ∃ meta, nxml = some meta ∧
    extract_gold_authors meta.author_nodes ≠ [] ∧
    (extract_gold_authors meta.author_nodes).length = meta.author_nodes.length ∧
    common_author_pages
      ((extract_gold_authors meta.author_nodes).map
        (author_matches_raw norm initials (pages.take MAX_PAGE_COUNT))) ≠ []

/-! ## Vision output (`VisionOutput`, dataprep2.py lines 169-208) -/

/-- A bounding box from the externally produced vision output, as stored
by `VisionOutput.__init__`. -/
structure BoundingBox where
  label : String
  left : ℚ
  right : ℚ
  top : ℚ
  bottom : ℚ
  confidence : ℚ
deriving DecidableEq

/-- One parsed line of `vision_output.json`: a document sha and its
per-page box lists. -/
structure VisionLine where
  docSha : String
  pages : List (List BoundingBox)

/-- The in-memory `VisionOutput.boxes` dictionary. -/
structure VisionOutputData where
  boxes : List (String × List (List BoundingBox))

/-- `VisionOutput.__init__(file_path)`: `open(file_path)` raises
`FileNotFoundError` when the file is absent (`none`); otherwise each line's
sha is mapped to its page lists (duplicate shas keep the last line, as in a
Python dict). -/
def visionOutput_init (file : Option (List VisionLine)) :
    Except String VisionOutputData :=
  match file with
  | none => .error "FileNotFoundError"
  | some lines => .ok ⟨lines.map (fun l => (l.docSha, l.pages))⟩

/-- Python dict lookup keeping the last binding for duplicate keys. -/
def dict_get (assoc : List (String × α)) (key : String) : Option α :=
  (assoc.reverse.find? (fun p => p.1 == key)).map Prod.snd

/-- `VisionOutput.boxes_for_sha_and_page` (dataprep2.py lines 196-205):
a missing sha (`KeyError`) or a missing page (`IndexError`) yields the
empty list. -/
def boxes_for_sha_and_page (vo : VisionOutputData) (sha : String)
    (page : Nat) : List BoundingBox :=
  match dict_get vo.boxes sha with
  | none => []
  | some pages => pages.getD page []

/-! ## Feature engineering (`featurized_tokens_file`, dataprep2.py lines
856-1072).  The `token_scaled_numeric_features` row of one token. -/

/-- A geometric box in the `(x1, y1, x2, y2)` layout used by
`compute_intersect`/`compute_iofirst`. -/
structure Box where
  x1 : ℚ
  y1 : ℚ
  x2 : ℚ
  y2 : ℚ
deriving DecidableEq

/-- One row of `token_numeric_features`: left, right, top, bottom,
font size, font space width. -/
structure TokNum where
  left : ℚ
  right : ℚ
  top : ℚ
  bottom : ℚ
  font_size : ℚ
  space_width : ℚ
deriving DecidableEq

/-- `compute_intersect(a, b)` (dataprep2.py lines 1015-1027). -/
def compute_intersect (a b : Box) : ℚ :=
  let top := max a.y1 b.y1
  let bottom := min a.y2 b.y2
  let left := max a.x1 b.x1
  let right := min a.x2 b.x2
  let tb := bottom - top
  let lr := right - left
  if tb < 0 ∨ lr < 0 then 0 else tb * lr

/-- `compute_iofirst(a, b)` (dataprep2.py lines 1029-1036): intersection
over the first box's own area, 0 for a degenerate first box. -/
def compute_iofirst (a b : Box) : ℚ :=
  let a_w := a.x2 - a.x1
  let a_h := a.y2 - a.y1
  let a_area := a_w * a_h
  if a_area = 0 then 0 else compute_intersect a b / a_area

/-- Python `max()` over a nonempty list (0 on an empty list, matching the
initialised `best_*_iofirst = 0`). -/
def list_max : List ℚ → ℚ
  | [] => 0
  | x :: xs => xs.foldl max x

/-- `best_title_iofirst`/`best_author_iofirst` for a token box against a
list of vision boxes (dataprep2.py lines 1042-1050). -/
def best_iofirst (c : Box) (boxes : List Box) : ℚ :=
  list_max (boxes.map (compute_iofirst c))

/-- The two vision-overlap flags, scaled numeric features 15 and 16
(dataprep2.py lines 1052-1056), before the final −0.5 shift. -/
def overlap_flags (title_boxes author_boxes : List Box) (c : Box) : ℚ × ℚ :=
  let bt := best_iofirst c title_boxes
  let ba := best_iofirst c author_boxes
  (if bt > 1/10 ∧ bt ≥ ba then 1 else 0,
   if ba > 1/10 ∧ ba > bt then 1 else 0)

/-- The `(left, top, right, bottom)` coordinates tuple built from a
`token_numeric_features` row (dataprep2.py lines 1038-1040). -/
def tok_box (t : TokNum) : Box :=
  { x1 := t.left, y1 := t.top, x2 := t.right, y2 := t.bottom }

/-- The boxes with a given label from the vision output, in the `(x1, y1,
x2, y2)` layout (dataprep2.py lines 1004-1013). -/
def labeled_boxes (bbs : List BoundingBox) (lab : String) : List Box :=
  (bbs.filter (fun bb => bb.label == lab)).map
    (fun bb => { x1 := bb.left, y1 := bb.top, x2 := bb.right, y2 := bb.bottom })

/-- One token's 17-entry `token_scaled_numeric_features` row before the
final −0.5 shift (dataprep2.py lines 931-1056): normalized box coordinates
(zeroed for non-positive page dimensions), corpus-level and document-level
font-size and space-width percentiles, the 7 external capitalization
features (`stringmatch.capitalization_features`, passed in as `cap_feats`),
and the two vision-overlap flags. -/
def scaled_numeric_features_row (width height : ℚ) (tok : TokNum)
    (fs_values fs_counts sw_values sw_counts : List ℚ)
    (doc_font_sizes doc_space_widths : List ℚ)
    (cap_feats : List ℚ) (title_boxes author_boxes : List Box) : List ℚ :=
  let geo : List ℚ :=
    [ if width ≤ 0 then 0 else tok.left / width,
      if width ≤ 0 then 0 else tok.right / width,
      if height ≤ 0 then 0 else tok.top / height,
      if height ≤ 0 then 0 else tok.bottom / height ]
  let pct : List ℚ :=
    [ percentile_function_from_values_and_counts fs_values fs_counts tok.font_size,
      percentile_function_from_values_and_counts sw_values sw_counts tok.space_width,
      percentile_function_from_values doc_font_sizes tok.font_size,
      percentile_function_from_values doc_space_widths tok.space_width ]
  let flags := overlap_flags title_boxes author_boxes (tok_box tok)
  geo ++ pct ++ cap_feats ++ [flags.1, flags.2]

/-- The stored row after the final shift
`scaled_numeric_features[:,:] -= 0.5` (dataprep2.py line 1061). -/
def stored_scaled_numeric_features (width height : ℚ) (tok : TokNum)
    (fs_values fs_counts sw_values sw_counts : List ℚ)
    (doc_font_sizes doc_space_widths : List ℚ)
    (cap_feats : List ℚ) (title_boxes author_boxes : List Box) : List ℚ :=
  (scaled_numeric_features_row width height tok fs_values fs_counts sw_values
    sw_counts doc_font_sizes doc_space_widths cap_feats title_boxes
    author_boxes).map (fun x => x - 1/2)

/-- The prefix of `featurized_tokens_file` that loads the vision output
(dataprep2.py line 885): executed before any per-document work, so an
absent `vision_output.json` aborts the whole build. -/
def featurized_vision_load (vision_file : Option (List VisionLine)) :
    Except String VisionOutputData :=
  visionOutput_init vision_file

/-! ## Embedding table (`GloveVectors` and `CombinedEmbeddings`,
dataprep2.py lines 210-349) -/

/-- The in-memory `GloveVectors` state after `_ensure_vectors`:
`dimensions` from the first file line, the word→row index dictionary over
normalized words, the vector rows, and the scalar standard deviation of
all vector entries (kept as a field; its numpy computation is external
floating-point arithmetic). -/
structure GloveVectors where
  dimensions : Nat
  word2index : List (String × Nat)
  vectors : List (List ℚ)
  vectors_stddev : ℚ

/-- `GloveVectors.get_vector(word)` (dataprep2.py lines 254-260): look the
normalized word up in the dictionary and return its vector row. -/
def get_vector (g : GloveVectors) (norm : String → String)
    (word : String) : Option (List ℚ) :=
  match dict_get g.word2index (norm word) with
  | none => none
  | some index => g.vectors.get? index

/-- `GloveVectors.get_dimensions_with_random()`. -/
def get_dimensions_with_random (g : GloveVectors) : Nat := g.dimensions + 1

/-- `GloveVectors.get_vector_or_random(word)` (dataprep2.py lines
262-278).  `hash` models `mmh3.hash` (a fixed, process-independent 32-bit
signed hash) and `rng seed stddev size` models
`np.random.RandomState(seed).normal(0.0, stddev, size)`, both external and
deterministic in their arguments. -/
def get_vector_or_random (g : GloveVectors) (norm : String → String)
    (hash : String → Int) (rng : Nat → ℚ → Nat → List ℚ)
    (word : String) : List ℚ :=
  match get_vector g norm word with
  | some vector => (1/2 : ℚ) :: vector
  | none =>
    let seed := ((hash (norm word)) % (2^31 - 1)).toNat
    let vector := rng seed g.vectors_stddev (g.dimensions + 1)
    vector.set 0 (-(1/2))

/-- `TokenStatistics.get_tokens_with_minimum_frequency` (dataprep2.py
lines 161-167): the statistics table is sorted by descending count, and
the iteration breaks at the first token below the threshold. -/
def tokens_with_minimum_frequency (tokens : List (String × Nat))
    (min_freq : Nat) : List String :=
  (tokens.takeWhile (fun p => decide (min_freq ≤ p.2))).map Prod.fst

/-- `CombinedEmbeddings.OOV` (dataprep2.py line 283). -/
def OOV : String := " ⚠ OOV ⚠ "

/-- `CombinedEmbeddings.OOV_INDEX` (0 is the keras masking value). -/
def OOV_INDEX : Nat := 1

/-- The `token2index` dictionary built by `CombinedEmbeddings._ensure_loaded`
(dataprep2.py lines 303-309): vocabulary tokens at index position + 2, and
the OOV token overridden to index 1. -/
def token2index (vocab : List String) (t : String) : Option Nat :=
  if t = OOV then some OOV_INDEX
  else (vocab.indexOf? t).map (· + 2)

/-- `CombinedEmbeddings.index_for_token(token)` (dataprep2.py lines
333-337): dictionary lookup of the normalized token with the OOV index as
default. -/
def index_for_token (vocab : List String) (norm : String → String)
    (token : String) : Nat :=
  (token2index vocab (norm token)).getD OOV_INDEX

/-! ## The shared artifact build skeleton (C8)

All three builders (`unlabeled_tokens_file` lines 373-477,
`labeled_tokens_file` lines 497-852, `featurized_tokens_file` lines
856-1072) share one file-system discipline: reuse an existing final
artifact; otherwise create a process-unique temp file with mode `w-`,
append to it, delete it and re-raise on any exception inside the `try`
block, and atomically rename it to the final path on full success.  The
file system is modelled by the contents of the two paths, a build by its
list of appended chunks and an optional failure point. -/

/-- The contents at the final artifact path and at the process-unique
temporary path (`none` = no file). -/
structure ArtifactFS (α : Type) where
  final : Option (List α)
  temp : Option (List α)

/-- File-system operations the skeleton performs. -/
inductive FsOp (α : Type) where
  | create
  | write (chunk : α)
  | removeTemp
  | renameTempToFinal

/-- Effect of one operation: `create` truncates the temp file to empty,
`write` appends a chunk to it, `removeTemp` deletes it, and
`renameTempToFinal` moves it over the final path in one step. -/
def applyOp (fs : ArtifactFS α) : FsOp α → ArtifactFS α
  | .create => { fs with temp := some [] }
  | .write c => { fs with temp := some (fs.temp.getD [] ++ [c]) }
  | .removeTemp => { fs with temp := none }
  | .renameTempToFinal => { final := fs.temp, temp := none }

/-- Run a list of operations. -/
def runOps (fs : ArtifactFS α) (ops : List (FsOp α)) : ArtifactFS α :=
  ops.foldl applyOp fs

/-- The operations the build skeleton emits: none when the final artifact
already exists or when temp-file creation fails (`w-` refuses to clobber
an existing temp file); otherwise create + writes, ending either in
`removeTemp` (body raised after `fail_at` writes) or in the atomic
rename. -/
def builder_ops (fs : ArtifactFS α) (writes : List α)
    (fail_at : Option Nat) : List (FsOp α) :=
  if fs.final.isSome then []
  else if fs.temp.isSome then []
  else
    match fail_at with
    | some k => FsOp.create :: ((writes.take k).map FsOp.write) ++ [FsOp.removeTemp]
    | none => FsOp.create :: (writes.map FsOp.write) ++ [FsOp.renameTempToFinal]

/-- The value the builder returns to its caller: the reused or fully built
artifact, or the propagated error. -/
def builder_result (fs : ArtifactFS α) (writes : List α)
    (fail_at : Option Nat) : Except Unit (List α) :=
  match fs.final with
  | some content => .ok content
  | none =>
    if fs.temp.isSome then .error ()
    else
      match fail_at with
      | some _ => .error ()
      | none => .ok writes

/-! ## Theorems -/

example : cumsum [1, 1] = [1, 2] := by norm_num [cumsum, cumsumFrom]

/-- C10: for every token box and every set of vision bounding boxes, the
title overlap flag (scaled numeric feature 15, before the final shift) is
set exactly when the best title intersection-over-own-area exceeds 0.1 and
is at least the best author value, the author flag (feature 16) exactly
when the best author value exceeds 0.1 and strictly exceeds the best title
value; hence at most one of the two flags is ever set for a single
token. -/
theorem overlap_flags_mutually_exclusive
    (title_boxes author_boxes : List Box) (c : Box) :
    ((overlap_flags title_boxes author_boxes c).1 = 1 ↔
      (1/10 < best_iofirst c title_boxes ∧
        best_iofirst c author_boxes ≤ best_iofirst c title_boxes)) ∧
    ((overlap_flags title_boxes author_boxes c).2 = 1 ↔
      (1/10 < best_iofirst c author_boxes ∧
        best_iofirst c title_boxes < best_iofirst c author_boxes)) ∧
    ¬((overlap_flags title_boxes author_boxes c).1 = 1 ∧
      (overlap_flags title_boxes author_boxes c).2 = 1) := by
  have key : overlap_flags title_boxes author_boxes c =
      (if 1/10 < best_iofirst c title_boxes ∧
          best_iofirst c author_boxes ≤ best_iofirst c title_boxes then 1 else 0,
       if 1/10 < best_iofirst c author_boxes ∧
          best_iofirst c title_boxes < best_iofirst c author_boxes then 1 else 0) := rfl
  by_cases h1 : 1/10 < best_iofirst c title_boxes ∧
      best_iofirst c author_boxes ≤ best_iofirst c title_boxes <;>
  by_cases h2 : 1/10 < best_iofirst c author_boxes ∧
      best_iofirst c title_boxes < best_iofirst c author_boxes <;>
  refine ⟨?_, ?_, ?_⟩ <;>
  simp [key, h1, h2] <;>
  first
    | exact absurd h2.2 (not_lt.mpr h1.2)
    | (intro ha hb hc; exact hb)

/-- C7: `index_for_token` over the frequency-bounded vocabulary never
returns the masking index 0; tokens equal after normalization resolve to
the same index; and a token whose normalized form is absent from the
vocabulary resolves to the OOV sentinel index 1. -/
theorem index_for_token_spec (stats : List (String × Nat)) (min_freq : Nat)
    (norm : String → String) (t t' : String) :
    index_for_token (tokens_with_minimum_frequency stats min_freq) norm t ≠ 0 ∧
    (norm t = norm t' →
      index_for_token (tokens_with_minimum_frequency stats min_freq) norm t =
        index_for_token (tokens_with_minimum_frequency stats min_freq) norm t') ∧
    (norm t ∉ tokens_with_minimum_frequency stats min_freq →
      index_for_token (tokens_with_minimum_frequency stats min_freq) norm t =
        OOV_INDEX) := by
  set vocab := tokens_with_minimum_frequency stats min_freq with hvocab
  refine ⟨?_, ?_, ?_⟩
  · unfold index_for_token token2index
    split_ifs with h
    · simp [OOV_INDEX]
    · cases hfind : vocab.indexOf? (norm t) with
      | none => simp [hfind, OOV_INDEX]
      | some i => simp [hfind]
  · intro h
    unfold index_for_token
    rw [h]
  · intro h
    unfold index_for_token token2index
    split_ifs with hoov
    · rfl
    · have : vocab.indexOf? (norm t) = none := by
        rw [List.indexOf?_eq_none_iff]
        intro x hx
        simp only [beq_iff_eq]
        intro hxe
        exact h (hxe ▸ hx)
      simp [this, OOV_INDEX]

/-- Witness for C7 at a concrete vocabulary: the token `"b"` is absent
from the vocabulary built from `[("a", 5)]` and resolves to the OOV
sentinel. -/
theorem index_for_token_spec_witness :
    index_for_token (tokens_with_minimum_frequency [("a", 5)] 1) id "b" =
      OOV_INDEX :=
  (index_for_token_spec [("a", 5)] 1 id "b" "b").2.2 (by
    simp [tokens_with_minimum_frequency, List.takeWhile])

/-- C6: `get_vector_or_random` returns a vector of width `dimensions + 1`
for every token, in- or out-of-vocabulary; its first scalar is +0.5 exactly
when the normalized token is in the pretrained table and −0.5 exactly when
it is not; and the result depends only on the normalized token (hence two
calls with the same token, in any two runs over the same table, agree).
Hypotheses: the stored vectors have the table's width, the seeded RNG
returns the requested number of draws, and the word→index dictionary
indexes into the vector table. -/
theorem get_vector_or_random_spec (g : GloveVectors) (norm : String → String)
    (hash : String → Int) (rng : Nat → ℚ → Nat → List ℚ)
    (hvec : ∀ v ∈ g.vectors, v.length = g.dimensions)
    (hrng : ∀ s sd n, (rng s sd n).length = n)
    (hidx : ∀ w i, dict_get g.word2index w = some i → i < g.vectors.length)
    (word : String) :
    (get_vector_or_random g norm hash rng word).length =
      get_dimensions_with_random g ∧
    ((get_vector_or_random g norm hash rng word).headD 0 = 1/2 ↔
      (dict_get g.word2index (norm word)).isSome) ∧
    ((get_vector_or_random g norm hash rng word).headD 0 = -(1/2) ↔
      ¬(dict_get g.word2index (norm word)).isSome) ∧
    (∀ word', norm word = norm word' →
      get_vector_or_random g norm hash rng word =
        get_vector_or_random g norm hash rng word') := by
  have hgv : (get_vector g norm word).isSome ↔
      (dict_get g.word2index (norm word)).isSome := by
    unfold get_vector
    cases hd : dict_get g.word2index (norm word) with
    | none => simp
    | some i =>
      have hi := hidx _ _ hd
      simp [hd, List.getElem?_eq_getElem hi]
  cases hv : get_vector g norm word with
  | some vector =>
    have hsome : (dict_get g.word2index (norm word)).isSome := by
      rw [← hgv, hv]; rfl
    have hmem : vector ∈ g.vectors := by
      unfold get_vector at hv
      cases hd : dict_get g.word2index (norm word) with
      | none => rw [hd] at hv; simp at hv
      | some i =>
        rw [hd] at hv
        exact List.get?_mem hv
    have hset : (get_vector_or_random g norm hash rng word).headD 0 = 1/2 := by
      simp [get_vector_or_random, hv]
    refine ⟨?_, ?_, ?_, ?_⟩
    · simp [get_vector_or_random, hv, get_dimensions_with_random, hvec vector hmem]
    · rw [hset]; exact iff_of_true rfl hsome
    · rw [hset]
      constructor
      · intro hcon; norm_num at hcon
      · intro hcon; exact absurd hsome hcon
    · intro word' hnorm
      unfold get_vector_or_random get_vector
      rw [hnorm]
  | none =>
    have hnone : ¬(dict_get g.word2index (norm word)).isSome := by
      rw [← hgv, hv]; simp
    have hlen : (rng (((hash (norm word)) % (2^31 - 1)).toNat) g.vectors_stddev
        (g.dimensions + 1)).length = g.dimensions + 1 := hrng _ _ _
    have hne : rng (((hash (norm word)) % (2^31 - 1)).toNat) g.vectors_stddev
        (g.dimensions + 1) ≠ [] := by
      intro hcon
      rw [hcon] at hlen
      simp at hlen
    have hhead : ∀ (l : List ℚ) (a : ℚ), l ≠ [] → (l.set 0 a).headD 0 = a := by
      intro l a hl
      cases l with
      | nil => exact absurd rfl hl
      | cons x xs => rfl
    have hset : (get_vector_or_random g norm hash rng word).headD 0 = -(1/2) := by
      simp only [get_vector_or_random, hv]
      exact hhead _ _ hne
    refine ⟨?_, ?_, ?_, ?_⟩
    · simp only [get_vector_or_random, hv, List.length_set,
        get_dimensions_with_random]
      exact hrng _ _ _
    · rw [hset]
      constructor
      · intro hcon; norm_num at hcon
      · intro hcon; exact absurd hcon hnone
    · rw [hset]; exact iff_of_true rfl hnone
    · intro word' hnorm
      unfold get_vector_or_random get_vector
      rw [hnorm]

/-- Witness for C6 at a concrete table: the in-vocabulary token `"a"`
receives a vector of width `dimensions + 1 = 3`. -/
theorem get_vector_or_random_spec_witness :
    (get_vector_or_random ⟨2, [("a", 0)], [[3, 4]], 1⟩ id (fun _ => 0)
        (fun _ _ n => List.replicate n 0) "a").length =
      get_dimensions_with_random ⟨2, [("a", 0)], [[3, 4]], 1⟩ :=
  (get_vector_or_random_spec ⟨2, [("a", 0)], [[3, 4]], 1⟩ id (fun _ => 0)
    (fun _ _ n => List.replicate n 0)
    (by intro v hv; simp at hv; simp [hv])
    (by intro s sd n; simp)
    (by intro w i hw; simp [dict_get] at hw; simp [hw.2.symm])
    "a").1

/-- Every match the scan loop yields is within the budget. -/
theorem find_loop_cost_le (p : PageData) (page_number : Nat)
    (matcher : Nat → StringMatchResult) (budget : Nat) :
    ∀ fuel offset m, m ∈ find_loop p page_number matcher budget fuel offset →
      m.cost ≤ budget := by
  intro fuel
  induction fuel with
  | zero => intro offset m hm; simp [find_loop] at hm
  | succ n ih =>
    intro offset m hm
    unfold find_loop at hm
    by_cases hoff : offset < p.page_len
    · rw [if_pos hoff] at hm
      by_cases hcost : (matcher offset).cost > budget
      · rw [if_pos hcost] at hm; simp at hm
      · rw [if_neg hcost] at hm
        rcases List.mem_cons.mp hm with h | h
        · subst h; exact not_lt.mp hcost
        · exact ih _ _ h
    · rw [if_neg hoff] at hm; simp at hm

/-- If every candidate from `off0` on is over budget, the full scan yields
nothing. -/
theorem scan_all_nil_of_over_budget (p : PageData) (page_number : Nat)
    (matcher : Nat → StringMatchResult) (budget : Nat) (off0 : Nat)
    (hall : ∀ o, off0 ≤ o → budget < (matcher o).cost) :
    ∀ fuel offset, off0 ≤ offset →
      scan_all_within_budget p page_number matcher budget fuel offset = [] := by
  intro fuel
  induction fuel with
  | zero => intros; rfl
  | succ n ih =>
    intro offset hoffs
    unfold scan_all_within_budget
    by_cases hoff : offset < p.page_len
    · rw [if_pos hoff, if_pos (hall offset hoffs)]
      exact ih _ (le_trans hoffs (Nat.le_add_right _ _))
    · rw [if_neg hoff]

/-- C1: the fuzzy-match generator yields only matches whose edit cost is
at most `⌊(length of the normalized query − its space count) / 5⌋`; the
scan loop stops the page as soon as the candidate at the current offset
exceeds the budget; and under the hypothesis that candidate cost is
non-decreasing in the scan offset, the loop with the early exit yields
exactly what a full scan of the page yields, so the early exit misses no
within-budget match. -/
theorem find_string_in_page_budget_and_early_exit (norm : String → String)
    (p : PageData) (page_number : Nat) (query : String) :
    (∀ m ∈ find_string_in_page norm p page_number query,
      m.cost ≤ string_match_budget (norm query)) ∧
    (∀ (matcher : Nat → StringMatchResult) (budget fuel offset : Nat),
      offset < p.page_len → budget < (matcher offset).cost →
      find_loop p page_number matcher budget (fuel+1) offset = []) ∧
    (∀ (matcher : Nat → StringMatchResult) (budget : Nat),
      (∀ i j, i ≤ j → (matcher i).cost ≤ (matcher j).cost) →
      ∀ fuel offset,
        find_loop p page_number matcher budget fuel offset =
          scan_all_within_budget p page_number matcher budget fuel offset) := by
  refine ⟨?_, ?_, ?_⟩
  · intro m hm
    exact find_loop_cost_le p page_number (p.oracle (norm query))
      (string_match_budget (norm query)) (p.page_len + 1) 0 m hm
  · intro matcher budget fuel offset hoff hcost
    unfold find_loop
    rw [if_pos hoff, if_pos hcost]
  · intro matcher budget mono fuel
    induction fuel with
    | zero => intro offset; rfl
    | succ n ih =>
      intro offset
      unfold find_loop scan_all_within_budget
      by_cases hoff : offset < p.page_len
      · rw [if_pos hoff, if_pos hoff]
        by_cases hcost : (matcher offset).cost > budget
        · rw [if_pos hcost, if_pos hcost]
          exact (scan_all_nil_of_over_budget p page_number matcher budget offset
            (fun o ho => lt_of_lt_of_le hcost (mono _ _ ho)) n _
            (Nat.le_add_right _ _)).symm
        · rw [if_neg hcost, if_neg hcost, ih]
      · rw [if_neg hoff, if_neg hoff]

/-- Witness for C1 at a concrete page and a concrete monotone matcher
(cost = scan offset): the early-exit loop and the full scan agree. -/
theorem find_string_in_page_budget_and_early_exit_witness :
    find_loop ⟨2, fun _ => none, 0, [], [], fun _ _ => ⟨0, 0, 1⟩⟩ 0
        (fun off => ⟨off, 0, 1⟩) 0 3 0 =
      scan_all_within_budget ⟨2, fun _ => none, 0, [], [], fun _ _ => ⟨0, 0, 1⟩⟩ 0
        (fun off => ⟨off, 0, 1⟩) 0 3 0 :=
  (find_string_in_page_budget_and_early_exit id
    ⟨2, fun _ => none, 0, [], [], fun _ _ => ⟨0, 0, 1⟩⟩ 0 "").2.2
    (fun off => ⟨off, 0, 1⟩) 0 (fun _ _ h => h) 3 0

/-- Unfolding the `let` bindings of the percentile function. -/
theorem percentile_unfold (values counts : List ℚ) (v : ℚ) :
    percentile_function_from_values_and_counts values counts v =
      (((0 : ℚ) :: (cumsum counts).map
          (fun x => x / (cumsum counts).getLastD 0)).getD
          (clipNat (searchsorted_left (none :: values.map some) v) 1
            ((none :: values.map some).length - 1)) 0 +
        ((0 : ℚ) :: (cumsum counts).map
          (fun x => x / (cumsum counts).getLastD 0)).getD
          (clipNat (searchsorted_left (none :: values.map some) v) 1
            ((none :: values.map some).length - 1) - 1) 0) / 2 := rfl

theorem cumsumFrom_length (l : List ℚ) : ∀ acc, (cumsumFrom acc l).length = l.length := by
  induction l with
  | nil => intro acc; rfl
  | cons c cs ih => intro acc; simp [cumsumFrom, ih]

theorem cumsumFrom_getD (l : List ℚ) :
    ∀ acc j, j < l.length →
      (cumsumFrom acc l).getD j 0 = acc + (l.take (j+1)).sum := by
  induction l with
  | nil => intro acc j hj; simp at hj
  | cons c cs ih =>
    intro acc j hj
    cases j with
    | zero => simp [cumsumFrom]
    | succ n =>
      have hn : n < cs.length := by simpa using hj
      simp only [cumsumFrom, List.getD_cons_succ, List.take_succ_cons,
        List.sum_cons]
      rw [ih (acc + c) n hn]
      ring

theorem cumsum_getD (l : List ℚ) (j : Nat) (hj : j < l.length) :
    (cumsum l).getD j 0 = (l.take (j+1)).sum := by
  rw [cumsum, cumsumFrom_getD l 0 j hj, zero_add]

theorem cumsumFrom_getLastD (l : List ℚ) :
    ∀ acc d, l ≠ [] → (cumsumFrom acc l).getLastD d = acc + l.sum := by
  induction l with
  | nil => intro acc d h; exact absurd rfl h
  | cons c cs ih =>
    intro acc d _
    cases cs with
    | nil => simp [cumsumFrom]
    | cons e es =>
      have hstep : cumsumFrom acc (c :: e :: es) =
          (acc + c) :: cumsumFrom (acc + c) (e :: es) := rfl
      rw [hstep, List.getLastD_cons, ih (acc + c) (acc + c) (by simp)]
      simp only [List.sum_cons]
      ring

theorem cumsum_getLastD_eq_sum (l : List ℚ) : (cumsum l).getLastD 0 = l.sum := by
  cases l with
  | nil => rfl
  | cons c cs =>
    rw [cumsum, cumsumFrom_getLastD (c :: cs) 0 0 (by simp), zero_add]

theorem cum_array_getD (counts : List ℚ) (T : ℚ) :
    ∀ j, j ≤ counts.length →
      ((0 : ℚ) :: (cumsum counts).map (fun x => x / T)).getD j 0 =
        (counts.take j).sum / T := by
  intro j hj
  cases j with
  | zero => simp
  | succ n =>
    have hn : n < counts.length := Nat.lt_of_succ_le hj
    have hlen : n < ((cumsum counts).map (fun x => x / T)).length := by
      simpa [cumsum, cumsumFrom_length] using hn
    have hlen' : n < (cumsum counts).length := by
      simpa [cumsum, cumsumFrom_length] using hn
    rw [List.getD_cons_succ, List.getD_eq_getElem _ _ hlen, List.getElem_map,
      ← List.getD_eq_getElem _ (0 : ℚ) hlen', cumsum_getD counts n hn]

theorem searchsorted_left_map_some (values : List ℚ) :
    ∀ j, values.Pairwise (· < ·) → j < values.length →
      searchsorted_left (values.map some) (values.getD j 0) = j := by
  induction values with
  | nil => intro j _ hj; simp at hj
  | cons x vs ih =>
    intro j hp hj
    rcases List.pairwise_cons.mp hp with ⟨hx, hp'⟩
    cases j with
    | zero =>
      simp only [List.map_cons, List.getD_cons_zero, searchsorted_left]
      rw [if_pos le_rfl]
    | succ n =>
      have hn : n < vs.length := by simpa using hj
      have hv : x < vs.getD n 0 := by
        have hmem : vs.getD n 0 ∈ vs := by
          rw [List.getD_eq_getElem _ _ hn]
          exact List.getElem_mem hn
        exact hx _ hmem
      simp only [List.map_cons, List.getD_cons_succ, searchsorted_left]
      rw [if_neg (not_le.mpr hv), ih n hp' hn]
      omega

theorem mass_at_most_take (values : List ℚ) :
    ∀ (counts : List ℚ) (j : Nat), values.Pairwise (· < ·) →
      counts.length = values.length → j < values.length →
      mass_at_most values counts (values.getD j 0) = (counts.take (j+1)).sum := by
  induction values with
  | nil => intro counts j _ _ hj; simp at hj
  | cons x vs ih =>
    intro counts j hp hl hj
    cases counts with
    | nil => simp at hl
    | cons c cs =>
      rcases List.pairwise_cons.mp hp with ⟨hx, hp'⟩
      have hls : cs.length = vs.length := by simpa using hl
      cases j with
      | zero =>
        simp only [List.getD_cons_zero]
        unfold mass_at_most
        rw [List.zip_cons_cons, List.filter_cons, if_pos (by simp)]
        simp only [List.map_cons, List.sum_cons]
        have hnil : ((vs.zip cs).filter (fun p => decide (p.1 ≤ x))) = [] := by
          rw [List.filter_eq_nil_iff]
          intro p hmem
          simp only [decide_eq_true_eq]
          exact not_le.mpr (hx _ (List.of_mem_zip hmem).1)
        rw [hnil]
        simp
      | succ n =>
        have hn : n < vs.length := by simpa using hj
        have hv : x < vs.getD n 0 := by
          have hmem : vs.getD n 0 ∈ vs := by
            rw [List.getD_eq_getElem _ _ hn]
            exact List.getElem_mem hn
          exact hx _ hmem
        simp only [List.getD_cons_succ]
        unfold mass_at_most
        rw [List.zip_cons_cons, List.filter_cons,
          if_pos (by simp only [decide_eq_true_eq]; exact le_of_lt hv)]
        simp only [List.map_cons, List.sum_cons]
        have hrec := ih cs n hp' hls hn
        unfold mass_at_most at hrec
        rw [hrec, List.take_succ_cons, List.sum_cons]

theorem mass_below_take (values : List ℚ) :
    ∀ (counts : List ℚ) (j : Nat), values.Pairwise (· < ·) →
      counts.length = values.length → j < values.length →
      mass_below values counts (values.getD j 0) = (counts.take j).sum := by
  induction values with
  | nil => intro counts j _ _ hj; simp at hj
  | cons x vs ih =>
    intro counts j hp hl hj
    cases counts with
    | nil => simp at hl
    | cons c cs =>
      rcases List.pairwise_cons.mp hp with ⟨hx, hp'⟩
      have hls : cs.length = vs.length := by simpa using hl
      cases j with
      | zero =>
        simp only [List.getD_cons_zero]
        unfold mass_below
        rw [List.zip_cons_cons, List.filter_cons, if_neg (by simp)]
        have hnil : ((vs.zip cs).filter (fun p => decide (p.1 < x))) = [] := by
          rw [List.filter_eq_nil_iff]
          intro p hmem
          simp only [decide_eq_true_eq]
          exact not_lt.mpr (le_of_lt (hx _ (List.of_mem_zip hmem).1))
        rw [hnil]
        simp
      | succ n =>
        have hn : n < vs.length := by simpa using hj
        have hv : x < vs.getD n 0 := by
          have hmem : vs.getD n 0 ∈ vs := by
            rw [List.getD_eq_getElem _ _ hn]
            exact List.getElem_mem hn
          exact hx _ hmem
        simp only [List.getD_cons_succ]
        unfold mass_below
        rw [List.zip_cons_cons, List.filter_cons,
          if_pos (by simp only [decide_eq_true_eq]; exact hv)]
        simp only [List.map_cons, List.sum_cons]
        have hrec := ih cs n hp' hls hn
        unfold mass_below at hrec
        rw [hrec, List.take_succ_cons, List.sum_cons]

/-- The percentile function evaluated at the `j`-th histogram value:
the average of the normalized cumulative masses up to index `j+1` and up
to index `j`. -/
theorem percentile_at_getD (values counts : List ℚ) (j : Nat)
    (hs : values.Pairwise (· < ·)) (hl : counts.length = values.length)
    (hj : j < values.length) :
    percentile_function_from_values_and_counts values counts (values.getD j 0) =
      (mass_at_most values counts (values.getD j 0) / counts.sum +
        mass_below values counts (values.getD j 0) / counts.sum) / 2 := by
  rw [percentile_unfold]
  have hss : searchsorted_left (none :: values.map some) (values.getD j 0) =
      1 + searchsorted_left (values.map some) (values.getD j 0) := rfl
  have hidx : clipNat (searchsorted_left (none :: values.map some)
      (values.getD j 0)) 1 ((none :: values.map some).length - 1) = j + 1 := by
    rw [hss, searchsorted_left_map_some values j hs hj]
    simp only [clipNat, List.length_cons, List.length_map]
    omega
  rw [hidx]
  have hj1 : j + 1 ≤ counts.length := by omega
  have hj0 : j ≤ counts.length := by omega
  rw [cumsum_getLastD_eq_sum]
  rw [cum_array_getD counts counts.sum (j+1) hj1]
  have : j + 1 - 1 = j := by omega
  rw [this, cum_array_getD counts counts.sum j hj0]
  rw [mass_at_most_take values counts j hs hl hj,
    mass_below_take values counts j hs hl hj]

/-- C4, counterexample to the universal quantification over query values:
for the histogram `values = [1, 2]`, `counts = [1, 1]` (positive total
count 2) and the query value 3, the built percentile function returns 3/4,
while the average of the inclusive and the exclusive cumulative-frequency
percentile of 3 is 1. -/
theorem percentile_average_counterexample :
    percentile_function_from_values_and_counts [1, 2] [1, 1] 3 = 3/4 ∧
    (mass_at_most [1, 2] [1, 1] 3 / ([1, 1] : List ℚ).sum +
      mass_below [1, 2] [1, 1] 3 / ([1, 1] : List ℚ).sum) / 2 = 1 ∧
    (3 : ℚ)/4 ≠ 1 := by
  refine ⟨?_, ?_, by norm_num⟩
  · norm_num [percentile_function_from_values_and_counts, cumsum, cumsumFrom,
      searchsorted_left, clipNat]
  · norm_num [mass_at_most, mass_below, List.filter]

/-- C4 (amended): for every histogram with strictly increasing values and
as many counts as values, and every query value `v` that occurs among the
histogram's values, the built percentile function returns exactly the
average of `v`'s inclusive cumulative-frequency percentile (fraction of
mass at values `≤ v`) and its exclusive percentile (fraction of mass at
values `< v`). -/
theorem percentile_is_average_at_histogram_values (values counts : List ℚ)
    (v : ℚ) (hs : values.Pairwise (· < ·))
    (hl : counts.length = values.length) (hv : v ∈ values) :
    percentile_function_from_values_and_counts values counts v =
      (mass_at_most values counts v / counts.sum +
        mass_below values counts v / counts.sum) / 2 := by
  rcases List.getElem_of_mem hv with ⟨j, hj, hget⟩
  have hgd : values.getD j 0 = v := by
    rw [List.getD_eq_getElem _ _ hj]; exact hget
  rw [← hgd]
  exact percentile_at_getD values counts j hs hl hj

/-- Witness for C4 (amended) at the histogram `[1, 2]`, `[1, 1]` and the
present value 2: the percentile is the average 3/4 of inclusive 1 and
exclusive 1/2. -/
theorem percentile_is_average_at_histogram_values_witness :
    percentile_function_from_values_and_counts [1, 2] [1, 1] 2 =
      (mass_at_most [1, 2] [1, 1] 2 / ([1, 1] : List ℚ).sum +
        mass_below [1, 2] [1, 1] 2 / ([1, 1] : List ℚ).sum) / 2 :=
  percentile_is_average_at_histogram_values [1, 2] [1, 1] 2
    (by norm_num) (by norm_num) (by norm_num)

theorem searchsorted_left_mono (xs : List (Option ℚ)) {v w : ℚ} (hvw : v ≤ w) :
    searchsorted_left xs v ≤ searchsorted_left xs w := by
  induction xs with
  | nil => exact le_rfl
  | cons x rest ih =>
    cases x with
    | none =>
      have hstep : ∀ u : ℚ, searchsorted_left (none :: rest) u =
          1 + searchsorted_left rest u := fun _ => rfl
      rw [hstep, hstep]
      exact Nat.add_le_add_left ih 1
    | some y =>
      by_cases hw : w ≤ y
      · have hv : v ≤ y := le_trans hvw hw
        simp [searchsorted_left, if_pos hv, if_pos hw]
      · by_cases hv : v ≤ y
        · simp [searchsorted_left, if_pos hv, if_neg hw]
        · simp only [searchsorted_left, if_neg hv, if_neg hw]
          omega

theorem cumsumFrom_chain (l : List ℚ) :
    ∀ acc, (∀ c ∈ l, 0 ≤ c) →
      List.Chain' (· ≤ ·) (acc :: cumsumFrom acc l) := by
  induction l with
  | nil => intro acc _; simp [cumsumFrom]
  | cons c cs ih =>
    intro acc h
    have h0 : (0:ℚ) ≤ c := h c (by simp)
    have htail := ih (acc + c) (fun d hd => h d (by simp [hd]))
    exact List.chain'_cons.mpr ⟨by linarith, htail⟩

theorem cum_array_chain (counts : List ℚ) (T : ℚ) (hT : 0 ≤ T)
    (hc : ∀ c ∈ counts, 0 ≤ c) :
    List.Chain' (· ≤ ·)
      ((0 : ℚ) :: (cumsum counts).map (fun x => x / T)) := by
  have base := cumsumFrom_chain counts 0 hc
  have hmap : (0 : ℚ) :: (cumsum counts).map (fun x => x / T) =
      (((0 : ℚ) :: cumsum counts).map (fun x => x / T)) := by
    simp [zero_div]
  rw [hmap]
  refine List.chain'_map_of_chain' _ ?_ base
  intro a b hab
  exact div_le_div_of_nonneg_right hab hT

theorem getD_mono_of_chain (l : List ℚ) (hl : List.Chain' (· ≤ ·) l)
    {i j : Nat} (hij : i ≤ j) (hj : j < l.length) :
    l.getD i 0 ≤ l.getD j 0 := by
  have hp : l.Pairwise (· ≤ ·) := List.chain'_iff_pairwise.mp hl
  rcases lt_or_eq_of_le hij with h | h
  · have hi : i < l.length := lt_trans h hj
    rw [List.getD_eq_getElem _ _ hi, List.getD_eq_getElem _ _ hj]
    exact List.pairwise_iff_get.mp hp ⟨i, hi⟩ ⟨j, hj⟩ h
  · subst h; exact le_rfl

theorem getD_length_sub_one (l : List ℚ) :
    l ≠ [] → l.getD (l.length - 1) 0 = l.getLastD 0 := by
  induction l with
  | nil => intro h; exact absurd rfl h
  | cons c cs ih =>
    intro _
    cases cs with
    | nil => rfl
    | cons e es =>
      have h1 : (c :: e :: es).length - 1 = (e :: es).length - 1 + 1 := by simp
      rw [h1, List.getD_cons_succ, ih (by simp)]
      simp [List.getLastD_cons]

theorem take_one_sum (l : List ℚ) : (l.take 1).sum = l.headD 0 := by
  cases l <;> simp

theorem take_length_sub_one_sum (l : List ℚ) :
    l ≠ [] → (l.take (l.length - 1)).sum = l.sum - l.getLastD 0 := by
  induction l with
  | nil => intro h; exact absurd rfl h
  | cons c cs ih =>
    intro _
    cases cs with
    | nil => simp
    | cons e es =>
      have h1 : (c :: e :: es).length - 1 = (e :: es).length - 1 + 1 := by simp
      rw [h1, List.take_succ_cons, List.sum_cons, ih (by simp)]
      simp only [List.sum_cons, List.getLastD_cons]
      ring

/-- C5, counterexample to "percentile(min) ≈ 0 and percentile(max) ≈ 1":
for the one-bin histogram `values = [5]`, `counts = [2]` (positive total
count), the value 5 is both the minimum and the maximum, and the built
percentile function returns 1/2 there — far from 0 and far from 1. -/
theorem percentile_min_max_counterexample :
    percentile_function_from_values_and_counts [5] [2] 5 = 1/2 ∧
    ¬(percentile_function_from_values_and_counts [5] [2] 5 < 1/4) ∧
    ¬(3/4 < percentile_function_from_values_and_counts [5] [2] 5) := by
  have h : percentile_function_from_values_and_counts [5] [2] 5 = 1/2 := by
    norm_num [percentile_function_from_values_and_counts, cumsum, cumsumFrom,
      searchsorted_left, clipNat]
  refine ⟨h, ?_, ?_⟩ <;> rw [h] <;> norm_num

/-- C5 (amended): for every histogram with strictly increasing values,
non-negative counts and positive total count, the built percentile
function is non-decreasing; its value at the histogram's minimum value is
exactly half the minimum bin's mass fraction (approximately 0 when that
bin is light), and its value at the maximum value is exactly 1 minus half
the maximum bin's mass fraction (approximately 1 when that bin is
light). -/
theorem percentile_monotone_min_max (values counts : List ℚ)
    (hs : values.Pairwise (· < ·)) (hl : counts.length = values.length)
    (hc : ∀ c ∈ counts, 0 ≤ c) (hne : values ≠ [])
    (hT : 0 < counts.sum) :
    (∀ v w, v ≤ w →
      percentile_function_from_values_and_counts values counts v ≤
        percentile_function_from_values_and_counts values counts w) ∧
    percentile_function_from_values_and_counts values counts
        (values.headD 0) = counts.headD 0 / counts.sum / 2 ∧
    percentile_function_from_values_and_counts values counts
        (values.getLastD 0) = 1 - counts.getLastD 0 / counts.sum / 2 := by
  have hcne : counts ≠ [] := by
    intro hcon
    rw [hcon] at hl
    have : values = [] := List.length_eq_zero.mp hl.symm
    exact hne this
  have hpos : 0 < values.length := List.length_pos.mpr hne
  refine ⟨?_, ?_, ?_⟩
  · intro v w hvw
    rw [percentile_unfold, percentile_unfold]
    have hT0 : (0:ℚ) ≤ (cumsum counts).getLastD 0 := by
      rw [cumsum_getLastD_eq_sum]; exact le_of_lt hT
    have hchain := cum_array_chain counts ((cumsum counts).getLastD 0) hT0 hc
    have hCAlen : ((0 : ℚ) :: (cumsum counts).map
        (fun x => x / (cumsum counts).getLastD 0)).length = counts.length + 1 := by
      simp [cumsum, cumsumFrom_length]
    have hnval : (none :: values.map some).length - 1 = values.length := by
      simp
    have hssm := searchsorted_left_mono (none :: values.map some) hvw
    have hclip : clipNat (searchsorted_left (none :: values.map some) v) 1
          ((none :: values.map some).length - 1) ≤
        clipNat (searchsorted_left (none :: values.map some) w) 1
          ((none :: values.map some).length - 1) := by
      unfold clipNat
      exact min_le_min (max_le_max hssm le_rfl) le_rfl
    have hboundw : clipNat (searchsorted_left (none :: values.map some) w) 1
        ((none :: values.map some).length - 1) < counts.length + 1 := by
      unfold clipNat
      have := min_le_right (max (searchsorted_left (none :: values.map some) w) 1)
        ((none :: values.map some).length - 1)
      omega
    have h1 := getD_mono_of_chain _ hchain hclip (by rw [hCAlen]; exact hboundw)
    have h2 := getD_mono_of_chain _ hchain (Nat.sub_le_sub_right hclip 1)
      (by rw [hCAlen]; omega)
    linarith
  · have h0 : values.getD 0 0 = values.headD 0 := by
      cases values with
      | nil => exact absurd rfl hne
      | cons x vs => rfl
    have := percentile_at_getD values counts 0 hs hl hpos
    rw [h0] at this
    rw [this]
    rw [show values.headD 0 = values.getD 0 0 from h0.symm]
    rw [mass_at_most_take values counts 0 hs hl hpos,
      mass_below_take values counts 0 hs hl hpos]
    rw [take_one_sum]
    simp only [List.take_zero, List.sum_nil, zero_div]
    ring
  · have hj : values.length - 1 < values.length := by omega
    have hlast : values.getD (values.length - 1) 0 = values.getLastD 0 :=
      getD_length_sub_one values hne
    have := percentile_at_getD values counts (values.length - 1) hs hl hj
    rw [hlast] at this
    rw [this]
    rw [show values.getLastD 0 = values.getD (values.length - 1) 0 from hlast.symm]
    rw [mass_at_most_take values counts (values.length - 1) hs hl hj,
      mass_below_take values counts (values.length - 1) hs hl hj]
    have hfull : values.length - 1 + 1 = counts.length := by omega
    rw [hfull, List.take_length]
    have hcl : values.length - 1 = counts.length - 1 := by omega
    rw [hcl, take_length_sub_one_sum counts hcne]
    have hS : counts.sum ≠ 0 := ne_of_gt hT
    field_simp
    ring

/-- Witness for C5 (amended) at the histogram `[1, 2]`, `[1, 1]`: the
percentile at the minimum value 1 equals half the minimum bin's mass
fraction, 1/4. -/
theorem percentile_monotone_min_max_witness :
    percentile_function_from_values_and_counts [1, 2] [1, 1]
        (([1, 2] : List ℚ).headD 0) =
      ([1, 1] : List ℚ).headD 0 / ([1, 1] : List ℚ).sum / 2 :=
  (percentile_monotone_min_max [1, 2] [1, 1] (by norm_num) (by norm_num)
    (by intro c hc; simp at hc; subst hc; norm_num)
    (by simp) (by norm_num)).2.1

theorem cumsumFrom_mem_bounds (l : List ℚ) :
    ∀ acc, (∀ c ∈ l, 0 ≤ c) →
      ∀ x ∈ cumsumFrom acc l, acc ≤ x ∧ x ≤ acc + l.sum := by
  induction l with
  | nil => intro acc _ x hx; simp [cumsumFrom] at hx
  | cons c cs ih =>
    intro acc h x hx
    have h0 : (0:ℚ) ≤ c := h c (by simp)
    have hsum : (0:ℚ) ≤ cs.sum :=
      List.sum_nonneg (fun d hd => h d (by simp [hd]))
    rcases List.mem_cons.mp hx with h1 | h1
    · subst h1
      constructor
      · linarith
      · simp only [List.sum_cons]; linarith
    · have := ih (acc + c) (fun d hd => h d (by simp [hd])) x h1
      constructor
      · linarith [this.1]
      · simp only [List.sum_cons]; linarith [this.2]

/-- Every value the percentile function can return lies in `[0, 1]` when
the histogram counts are non-negative. -/
theorem percentile_mem_unit (values counts : List ℚ)
    (hc : ∀ c ∈ counts, 0 ≤ c) (v : ℚ) :
    0 ≤ percentile_function_from_values_and_counts values counts v ∧
      percentile_function_from_values_and_counts values counts v ≤ 1 := by
  rw [percentile_unfold]
  have hS : (0:ℚ) ≤ counts.sum := List.sum_nonneg hc
  have hentry : ∀ i, 0 ≤ ((0 : ℚ) :: (cumsum counts).map
        (fun x => x / (cumsum counts).getLastD 0)).getD i 0 ∧
      ((0 : ℚ) :: (cumsum counts).map
        (fun x => x / (cumsum counts).getLastD 0)).getD i 0 ≤ 1 := by
    have hall : ∀ y ∈ (0 : ℚ) :: (cumsum counts).map
        (fun x => x / (cumsum counts).getLastD 0), 0 ≤ y ∧ y ≤ 1 := by
      intro y hy
      rcases List.mem_cons.mp hy with h1 | h1
      · rw [h1]; norm_num
      · rcases List.mem_map.mp h1 with ⟨x, hx, hfx⟩
        have hbounds := cumsumFrom_mem_bounds counts 0 hc x hx
        rw [← hfx, cumsum_getLastD_eq_sum]
        rcases eq_or_lt_of_le hS with h0 | hpos
        · rw [← h0]; norm_num
        · constructor
          · exact div_nonneg (by linarith [hbounds.1]) (le_of_lt hpos)
          · rw [div_le_one hpos]; linarith [hbounds.2]
    intro i
    by_cases hi : i < ((0 : ℚ) :: (cumsum counts).map
        (fun x => x / (cumsum counts).getLastD 0)).length
    · rw [List.getD_eq_getElem _ _ hi]
      exact hall _ (List.getElem_mem hi)
    · rw [List.getD_eq_default _ _ (le_of_not_lt hi)]
      norm_num
  constructor
  · have l1 := hentry (clipNat (searchsorted_left (none :: values.map some) v) 1
      ((none :: values.map some).length - 1))
    have l2 := hentry (clipNat (searchsorted_left (none :: values.map some) v) 1
      ((none :: values.map some).length - 1) - 1)
    linarith [l1.1, l2.1]
  · have l1 := hentry (clipNat (searchsorted_left (none :: values.map some) v) 1
      ((none :: values.map some).length - 1))
    have l2 := hentry (clipNat (searchsorted_left (none :: values.map some) v) 1
      ((none :: values.map some).length - 1) - 1)
    linarith [l1.2, l2.2]

/-- The document-level percentile function (built from raw values via
`numpy.unique`) also always returns values in `[0, 1]`. -/
theorem percentile_from_values_mem_unit (values : List ℚ) (v : ℚ) :
    0 ≤ percentile_function_from_values values v ∧
      percentile_function_from_values values v ≤ 1 := by
  unfold percentile_function_from_values
  apply percentile_mem_unit
  intro c hc
  rcases List.mem_map.mp hc with ⟨u, _, hu⟩
  rw [← hu]
  positivity

/-- C3, counterexample: a token whose left coordinate (2) exceeds the page
width (1) produces a stored scaled numeric feature of 3/2, outside
`[−1/2, 1/2]` — the geometric features are divided by the page dimensions
but never clamped before the final −0.5 shift. -/
theorem stored_features_out_of_range_counterexample :
    (stored_scaled_numeric_features 1 1 ⟨2, 3, 0, 1, 10, 1⟩ [10] [1] [1] [1]
        [10] [1] (List.replicate 7 0) [] []).headD 0 = 3/2 ∧
    ¬((3:ℚ)/2 ≤ 1/2) := by
  constructor
  · simp only [stored_scaled_numeric_features, scaled_numeric_features_row,
      List.cons_append, List.map_cons, List.headD_cons]
    norm_num
  · norm_num

/-- C3 (amended): every value stored in `token_scaled_numeric_features`
lies in `[−1/2, +1/2]` after the final −0.5 shift, provided each token's
box coordinates lie within the page's `[0, width] × [0, height]` (the code
does not clamp them), the corpus histogram counts are non-negative, and
the external capitalization features lie in `[0, 1]` as documented. -/
theorem stored_features_in_range (width height : ℚ) (tok : TokNum)
    (fs_values fs_counts sw_values sw_counts : List ℚ)
    (doc_font_sizes doc_space_widths : List ℚ)
    (cap_feats : List ℚ) (title_boxes author_boxes : List Box)
    (hfs : ∀ c ∈ fs_counts, 0 ≤ c) (hsw : ∀ c ∈ sw_counts, 0 ≤ c)
    (hleft : 0 ≤ tok.left ∧ tok.left ≤ width)
    (hright : 0 ≤ tok.right ∧ tok.right ≤ width)
    (htop : 0 ≤ tok.top ∧ tok.top ≤ height)
    (hbottom : 0 ≤ tok.bottom ∧ tok.bottom ≤ height)
    (hcap : ∀ x ∈ cap_feats, 0 ≤ x ∧ x ≤ 1) :
    ∀ x ∈ stored_scaled_numeric_features width height tok fs_values fs_counts
        sw_values sw_counts doc_font_sizes doc_space_widths cap_feats
        title_boxes author_boxes,
      -(1/2) ≤ x ∧ x ≤ 1/2 := by
  have hdiv : ∀ (a dim : ℚ), 0 ≤ a → a ≤ dim →
      0 ≤ (if dim ≤ 0 then (0:ℚ) else a / dim) ∧
        (if dim ≤ 0 then (0:ℚ) else a / dim) ≤ 1 := by
    intro a dim ha hadim
    by_cases hd : dim ≤ 0
    · rw [if_pos hd]; norm_num
    · rw [if_neg hd]
      have hdpos : 0 < dim := lt_of_not_le hd
      exact ⟨div_nonneg ha (le_of_lt hdpos), (div_le_one hdpos).mpr hadim⟩
  have hflag : ∀ (b : Prop) [Decidable b], 0 ≤ (if b then (1:ℚ) else 0) ∧
      (if b then (1:ℚ) else 0) ≤ 1 := by
    intro b hb
    by_cases h : b <;> simp [h]
  intro x hx
  unfold stored_scaled_numeric_features at hx
  rcases List.mem_map.mp hx with ⟨y, hy, hxy⟩
  suffices hy01 : 0 ≤ y ∧ y ≤ 1 by
    rw [← hxy]
    constructor <;> linarith [hy01.1, hy01.2]
  unfold scaled_numeric_features_row at hy
  simp only [List.append_assoc, List.mem_append, List.mem_cons,
    List.not_mem_nil, or_false] at hy
  rcases hy with (h | h | h | h) | ((h | h | h | h) | (hcapm | (h | h)))
  · rw [h]; exact hdiv tok.left width hleft.1 hleft.2
  · rw [h]; exact hdiv tok.right width hright.1 hright.2
  · rw [h]; exact hdiv tok.top height htop.1 htop.2
  · rw [h]; exact hdiv tok.bottom height hbottom.1 hbottom.2
  · rw [h]; exact percentile_mem_unit fs_values fs_counts hfs tok.font_size
  · rw [h]; exact percentile_mem_unit sw_values sw_counts hsw tok.space_width
  · rw [h]; exact percentile_from_values_mem_unit doc_font_sizes tok.font_size
  · rw [h]; exact percentile_from_values_mem_unit doc_space_widths tok.space_width
  · exact hcap y hcapm
  · rw [h]
    unfold overlap_flags
    exact hflag _
  · rw [h]
    unfold overlap_flags
    exact hflag _

/-- Witness for C3 (amended) at a concrete in-range token: every stored
feature of a unit-page token with box `[0, 1] × [0, 1]` lies within
`[−1/2, 1/2]`; checked at the first stored feature, −1/2. -/
theorem stored_features_in_range_witness :
    -(1/2 : ℚ) ≤ (stored_scaled_numeric_features 1 1 ⟨0, 1, 0, 1, 10, 1⟩ [10]
        [1] [1] [1] [10] [1] (List.replicate 7 0) [] []).headD 0 ∧
    (stored_scaled_numeric_features 1 1 ⟨0, 1, 0, 1, 10, 1⟩ [10] [1] [1] [1]
        [10] [1] (List.replicate 7 0) [] []).headD 0 ≤ 1/2 := by
  have hmem : (stored_scaled_numeric_features 1 1 ⟨0, 1, 0, 1, 10, 1⟩ [10] [1]
      [1] [1] [10] [1] (List.replicate 7 0) [] []).headD 0 ∈
      stored_scaled_numeric_features 1 1 ⟨0, 1, 0, 1, 10, 1⟩ [10] [1] [1] [1]
        [10] [1] (List.replicate 7 0) [] [] := by
    simp only [stored_scaled_numeric_features, scaled_numeric_features_row,
      List.cons_append, List.map_cons, List.headD_cons]
    exact List.mem_cons_self _ _
  exact stored_features_in_range 1 1 ⟨0, 1, 0, 1, 10, 1⟩ [10] [1] [1] [1]
    [10] [1] (List.replicate 7 0) [] []
    (by intro c hc; simp at hc; subst hc; norm_num)
    (by intro c hc; simp at hc; subst hc; norm_num)
    (by norm_num) (by norm_num) (by norm_num) (by norm_num)
    (by intro c hc; simp at hc; subst hc; norm_num)
    _ hmem

/-- C9, counterexample to "including the case where the bucket's vision
output file itself is absent": the vision output is loaded by
`VisionOutput(os.path.join(bucket_path, "vision_output.json"))` before the
per-document work, and `open` on an absent file raises, aborting the
featurized build instead of yielding zero features. -/
theorem featurized_vision_file_absent_fatal :
    featurized_vision_load none = Except.error "FileNotFoundError" ∧
    ∀ vo, featurized_vision_load none ≠ Except.ok vo :=
  ⟨rfl, fun vo h => by simp [featurized_vision_load, visionOutput_init] at h⟩

/-- C9 (amended): missing vision data for a document (sha absent from the
loaded file) or for a page (page index beyond the document's box lists) is
non-fatal — the box lookup returns the empty list — and yields zero-valued
overlap flags for every token box; an absent vision output file, by
contrast, aborts the build (see the counterexample). -/
theorem missing_vision_gives_zero_flags :
    (∀ (lines : List VisionLine) (sha : String) (page : Nat),
      (∀ l ∈ lines, l.docSha ≠ sha) →
      ∀ vo, visionOutput_init (some lines) = Except.ok vo →
        boxes_for_sha_and_page vo sha page = []) ∧
    (∀ (vo : VisionOutputData) (sha : String) (page : Nat),
      (∀ pages, dict_get vo.boxes sha = some pages → pages.length ≤ page) →
        boxes_for_sha_and_page vo sha page = []) ∧
    (∀ (c : Box),
      overlap_flags (labeled_boxes [] "title") (labeled_boxes [] "author") c =
        (0, 0)) := by
  refine ⟨?_, ?_, ?_⟩
  · intro lines sha page hsha vo hvo
    have hvo' : vo = ⟨lines.map (fun l => (l.docSha, l.pages))⟩ := by
      simpa [visionOutput_init] using hvo.symm
    subst hvo'
    unfold boxes_for_sha_and_page
    have hnone : dict_get (lines.map (fun l => (l.docSha, l.pages))) sha = none := by
      unfold dict_get
      rw [List.find?_eq_none.mpr]
      · rfl
      · intro p hp
        rw [List.mem_reverse, List.mem_map] at hp
        rcases hp with ⟨l, hl, hpl⟩
        simp only [beq_eq_false_iff_ne, ne_eq, beq_iff_eq]
        rw [← hpl]
        exact hsha l hl
    rw [hnone]
  · intro vo sha page hlen
    unfold boxes_for_sha_and_page
    cases hd : dict_get vo.boxes sha with
    | none => rfl
    | some pages => exact List.getD_eq_default _ _ (hlen pages hd)
  · intro c
    simp [labeled_boxes, overlap_flags, best_iofirst, list_max]

/-- Witness for C9 (amended): the empty vision file parses, the lookup of
an absent sha yields no boxes, and the overlap flags are zero. -/
theorem missing_vision_gives_zero_flags_witness :
    boxes_for_sha_and_page ⟨[]⟩ "a" 0 = [] :=
  missing_vision_gives_zero_flags.1 [] "a" 0 (by simp) ⟨[]⟩ rfl

theorem runOps_cons {α : Type} (fs : ArtifactFS α) (op : FsOp α)
    (ops : List (FsOp α)) :
    runOps fs (op :: ops) = runOps (applyOp fs op) ops := rfl

theorem runOps_append {α : Type} (fs : ArtifactFS α) (a b : List (FsOp α)) :
    runOps fs (a ++ b) = runOps (runOps fs a) b := by
  simp [runOps]

theorem runOps_map_write {α : Type} (l : List α) :
    ∀ (fs : ArtifactFS α) (t : List α), fs.temp = some t →
      runOps fs (l.map FsOp.write) = ⟨fs.final, some (t ++ l)⟩ := by
  induction l with
  | nil =>
    intro fs t ht
    cases fs with
    | mk f tmp =>
      simp only [List.map_nil, runOps, List.foldl_nil, List.append_nil]
      simp only at ht
      rw [ht]
  | cons c cs ih =>
    intro fs t ht
    rw [List.map_cons, runOps_cons]
    have h1 : applyOp fs (FsOp.write c) = ⟨fs.final, some (t ++ [c])⟩ := by
      simp [applyOp, ht]
    rw [h1, ih ⟨fs.final, some (t ++ [c])⟩ (t ++ [c]) rfl]
    simp

/-- C8: the shared build skeleton of the three artifact builders.  If the
body raises after any number of appended chunks, the temporary file is
deleted, the final path still holds no file, and the error propagates; on
full success the final path holds the complete artifact, installed by the
single atomic rename.  Moreover after every step of the emitted operation
sequence the final path holds either no file or the complete artifact —
never a partial one. -/
theorem artifact_builder_atomic {α : Type} (fs : ArtifactFS α)
    (writes : List α) (fail_at : Option Nat)
    (hfinal : fs.final = none) (htemp : fs.temp = none) :
    (∀ k, fail_at = some k →
      (runOps fs (builder_ops fs writes fail_at)).temp = none ∧
      (runOps fs (builder_ops fs writes fail_at)).final = none ∧
      builder_result fs writes fail_at = Except.error ()) ∧
    (fail_at = none →
      (runOps fs (builder_ops fs writes fail_at)).final = some writes ∧
      (runOps fs (builder_ops fs writes fail_at)).temp = none ∧
      builder_result fs writes fail_at = Except.ok writes) ∧
    (∀ j, (runOps fs ((builder_ops fs writes fail_at).take j)).final = none ∨
      (runOps fs ((builder_ops fs writes fail_at).take j)).final =
        some writes) := by
  obtain ⟨f, tmp⟩ := fs
  simp only at hfinal htemp
  subst hfinal
  subst htemp
  have hcreate : applyOp (⟨none, none⟩ : ArtifactFS α) FsOp.create =
      ⟨none, some []⟩ := rfl
  have hops : ∀ (ws : List α) (last : FsOp α),
      runOps (⟨none, none⟩ : ArtifactFS α)
        (FsOp.create :: (ws.map FsOp.write ++ [last])) =
      applyOp ⟨none, some ws⟩ last := by
    intro ws last
    rw [runOps_cons, hcreate, runOps_append,
      runOps_map_write ws ⟨none, some []⟩ [] rfl]
    simp [runOps]
  have hops_def : builder_ops (⟨none, none⟩ : ArtifactFS α) writes fail_at =
      match fail_at with
      | some k => FsOp.create ::
          ((writes.take k).map FsOp.write ++ [FsOp.removeTemp])
      | none => FsOp.create :: (writes.map FsOp.write ++ [FsOp.renameTempToFinal]) := by
    cases fail_at <;> simp [builder_ops]
  refine ⟨?_, ?_, ?_⟩
  · intro k hk
    subst hk
    simp only [hops_def]
    rw [hops (writes.take k) FsOp.removeTemp]
    refine ⟨rfl, rfl, ?_⟩
    simp [builder_result]
  · intro hk
    subst hk
    simp only [hops_def]
    rw [hops writes FsOp.renameTempToFinal]
    refine ⟨rfl, rfl, ?_⟩
    simp [builder_result]
  · intro j
    rw [hops_def]
    have hpref : ∀ (ws : List α) (last : FsOp α),
        (runOps (⟨none, none⟩ : ArtifactFS α)
          ((FsOp.create :: (ws.map FsOp.write ++ [last])).take j)).final = none ∨
        (runOps (⟨none, none⟩ : ArtifactFS α)
          ((FsOp.create :: (ws.map FsOp.write ++ [last])).take j)).final =
          (applyOp ⟨none, some ws⟩ last).final ∨
        (runOps (⟨none, none⟩ : ArtifactFS α)
          ((FsOp.create :: (ws.map FsOp.write ++ [last])).take j)).final = none := by
      intro ws last
      cases j with
      | zero => left; rfl
      | succ i =>
        rw [List.take_succ_cons, runOps_cons, hcreate,
          List.take_append_eq_append_take, runOps_append]
        have hmt : (ws.map FsOp.write).take i = (ws.take i).map FsOp.write := by
          rw [List.map_take]
        rw [hmt, runOps_map_write (ws.take i) ⟨none, some []⟩ [] rfl]
        simp only [List.nil_append, List.length_map]
        by_cases hrest : i - ws.length = 0
        · rw [hrest]
          left
          simp [runOps]
        · have h1 : [last].take (i - ws.length) = [last] := by
            have : 1 ≤ i - ws.length := Nat.one_le_iff_ne_zero.mpr hrest
            exact List.take_of_length_le (by simpa using this)
          rw [h1]
          right; left
          have hiw : ws.length ≤ i := by omega
          have htk : ws.take i = ws := List.take_of_length_le hiw
          rw [htk]
          simp [runOps]
    cases fail_at with
    | some k =>
      rcases hpref (writes.take k) FsOp.removeTemp with h | h | h
      · exact Or.inl h
      · left
        rw [h]
        rfl
      · exact Or.inl h
    | none =>
      rcases hpref writes FsOp.renameTempToFinal with h | h | h
      · exact Or.inl h
      · right
        rw [h]
        simp [applyOp]
      · exact Or.inl h

/-- Witness for C8 at a concrete build: a build of two chunks failing
after the first leaves no file at the final path, deletes the temporary
file, and reports the error. -/
theorem artifact_builder_atomic_witness :
    (runOps (⟨none, none⟩ : ArtifactFS Nat)
        (builder_ops ⟨none, none⟩ [1, 2] (some 1))).temp = none ∧
    (runOps (⟨none, none⟩ : ArtifactFS Nat)
        (builder_ops ⟨none, none⟩ [1, 2] (some 1))).final = none ∧
    builder_result (⟨none, none⟩ : ArtifactFS Nat) [1, 2] (some 1) =
      Except.error () :=
  (artifact_builder_atomic (⟨none, none⟩ : ArtifactFS Nat) [1, 2] (some 1)
    rfl rfl).1 1 rfl

theorem min_by_eq_none_iff (lt : α → α → Bool) (l : List α) :
    min_by lt l = none ↔ l = [] := by
  cases l <;> simp [min_by]

theorem best_title_match_foldl_isSome (norm : String → String) (gt : String) :
    ∀ (l : List (Nat × PageData)) (acc : Option FuzzyMatch),
      (l.foldl (fun best pnp =>
        match min_by title_key_lt (find_string_in_page norm pnp.2 pnp.1 gt) with
        | none => best
        | some m =>
          match best with
          | none => some m
          | some b => if m.cost < b.cost then some m else some b) acc).isSome ↔
      (acc.isSome ∨ ∃ pnp ∈ l, find_string_in_page norm pnp.2 pnp.1 gt ≠ []) := by
  intro l
  induction l with
  | nil => intro acc; simp
  | cons p ps ih =>
    intro acc
    rw [List.foldl_cons, ih]
    have hstep : ((match min_by title_key_lt (find_string_in_page norm p.2 p.1 gt) with
        | none => acc
        | some m =>
          match acc with
          | none => some m
          | some b => if m.cost < b.cost then some m else some b) :
          Option FuzzyMatch).isSome ↔
        (acc.isSome ∨ find_string_in_page norm p.2 p.1 gt ≠ []) := by
      cases hms : find_string_in_page norm p.2 p.1 gt with
      | nil => simp [min_by]
      | cons x xs =>
        simp only [min_by]
        cases acc with
        | none => simp
        | some b =>
          dsimp only
          split_ifs <;> simp
    rw [hstep]
    constructor
    · rintro ((h | h) | h)
      · exact Or.inl h
      · exact Or.inr ⟨p, by simp, h⟩
      · rcases h with ⟨q, hq, hne⟩
        exact Or.inr ⟨q, by simp [hq], hne⟩
    · rintro (h | ⟨q, hq, hne⟩)
      · exact Or.inl (Or.inl h)
      · rcases List.mem_cons.mp hq with rfl | hq'
        · exact Or.inl (Or.inr hne)
        · exact Or.inr ⟨q, hq', hne⟩

theorem best_title_match_isSome_iff (norm : String → String)
    (pages : List PageData) (gt : String) :
    (best_title_match norm pages gt).isSome ↔
      ∃ pnp ∈ pages.enum, find_string_in_page norm pnp.2 pnp.1 gt ≠ [] := by
  unfold best_title_match
  rw [best_title_match_foldl_isSome norm gt pages.enum none]
  simp

theorem foldl_filter_pages_mem (ls : List (List FuzzyMatch)) :
    ∀ (acc : List Nat) (x : Nat),
      x ∈ ls.foldl (fun acc ms =>
        acc.filter (fun y => decide (y ∈ pages_with_matches ms))) acc →
      x ∈ acc ∧ ∀ ms ∈ ls, x ∈ pages_with_matches ms := by
  induction ls with
  | nil => intro acc x hx; exact ⟨hx, by simp⟩
  | cons m ms ih =>
    intro acc x hx
    rw [List.foldl_cons] at hx
    have h2 := ih _ x hx
    have h3 := List.mem_filter.mp h2.1
    refine ⟨h3.1, ?_⟩
    intro ms' hms'
    rcases List.mem_cons.mp hms' with rfl | h
    · simpa using h3.2
    · exact h2.2 ms' h

theorem common_author_pages_mem (lists : List (List FuzzyMatch)) (x : Nat)
    (hx : x ∈ common_author_pages lists) :
    ∀ ms ∈ lists, x ∈ pages_with_matches ms := by
  cases lists with
  | nil => simp [common_author_pages] at hx
  | cons l ls =>
    unfold common_author_pages at hx
    have h := foldl_filter_pages_mem ls (pages_with_matches l) x hx
    intro ms hms
    rcases List.mem_cons.mp hms with rfl | hm
    · exact h.1
    · exact h.2 ms hm

theorem foldl_min_mem (xs : List Nat) : ∀ x, xs.foldl min x ∈ x :: xs := by
  induction xs with
  | nil => intro x; simp
  | cons c cs ih =>
    intro x
    rw [List.foldl_cons]
    rcases List.mem_cons.mp (ih (min x c)) with h | h
    · rcases min_choice x c with hm | hm
      · rw [h, hm]; exact List.mem_cons_self _ _
      · rw [h, hm]; exact List.mem_cons_of_mem _ (List.mem_cons_self _ _)
    · exact List.mem_cons_of_mem _ (List.mem_cons_of_mem _ h)

theorem min_nat_list_mem (l : List Nat) (h : l ≠ []) : min_nat_list l ∈ l := by
  cases l with
  | nil => exact absurd rfl h
  | cons x xs => exact foldl_min_mem xs x

theorem pages_with_matches_mem (ms : List FuzzyMatch) (pg : Nat) :
    pg ∈ pages_with_matches ms ↔ ∃ m ∈ ms, m.page_number = pg := by
  simp [pages_with_matches]

theorem filter_page_ne_nil (ms : List FuzzyMatch) (pg : Nat)
    (h : ∃ m ∈ ms, m.page_number = pg) :
    ms.filter (fun m => decide (m.page_number = pg)) ≠ [] := by
  rcases h with ⟨m, hm, hpg⟩
  intro hcon
  have := List.filter_eq_nil_iff.mp hcon m hm
  simp [hpg] at this

/-- C2: an entry is committed to the labeled artifact exactly when the
document's single gold title survives the length gate and is found by the
fuzzy matcher (within the cost budget, which is all the generator ever
yields) on some effective page, AND every gold author was extracted (at
least one, with no author node dropped for a missing surname) and all
authors share at least one common page of matches.  In particular a
document with zero extractable gold authors, or whose title is not found
within the budget on any page, produces no entry. -/
theorem label_document_commit_iff (norm : String → String)
    (initials : String → String → String) (nxml : Option NxmlMeta)
    (doc_id doc_sha : String) (pages : List PageData) :
    (label_document norm initials nxml doc_id doc_sha pages).isSome ↔
      (title_resolvable norm nxml pages ∧
        authors_resolvable norm initials nxml pages) := by
  cases nxml with
  | none =>
    simp [label_document, title_resolvable, authors_resolvable]
  | some meta =>
    obtain ⟨titles, nodes⟩ := meta
    cases titles with
    | nil =>
      constructor
      · intro h; exact absurd h (by simp [label_document])
      · rintro ⟨⟨meta', t', hmeta, htitles', -, -⟩, -⟩
        obtain rfl : meta' = ⟨[], nodes⟩ := (Option.some.inj hmeta).symm
        simp at htitles'
    | cons t ts =>
      cases ts with
      | cons t2 ts2 =>
        constructor
        · intro h; exact absurd h (by simp [label_document])
        · rintro ⟨⟨meta', t', hmeta, htitles', -, -⟩, -⟩
          obtain rfl : meta' = ⟨t :: t2 :: ts2, nodes⟩ := (Option.some.inj hmeta).symm
          simp at htitles'
      | nil =>
        have hTR : title_resolvable norm (some ⟨[t], nodes⟩) pages ↔
            (4 < (trim_punctuation t).length ∧
              ∃ pnp ∈ (pages.take MAX_PAGE_COUNT).enum,
                find_string_in_page norm pnp.2 pnp.1 (trim_punctuation t) ≠ []) := by
          unfold title_resolvable
          constructor
          · rintro ⟨meta', t', hmeta, htitles', hlen', hex⟩
            obtain rfl : meta' = ⟨[t], nodes⟩ := (Option.some.inj hmeta).symm
            obtain rfl : t = t' := by simpa using htitles'
            exact ⟨hlen', hex⟩
          · rintro ⟨hlen', hex⟩
            exact ⟨⟨[t], nodes⟩, t, rfl, rfl, hlen', hex⟩
        have hAR : authors_resolvable norm initials (some ⟨[t], nodes⟩) pages ↔
            (extract_gold_authors nodes ≠ [] ∧
              (extract_gold_authors nodes).length = nodes.length ∧
              common_author_pages ((extract_gold_authors nodes).map
                (author_matches_raw norm initials (pages.take MAX_PAGE_COUNT))) ≠ []) := by
          unfold authors_resolvable
          constructor
          · rintro ⟨meta', hmeta, h1, h2, h3⟩
            obtain rfl : meta' = ⟨[t], nodes⟩ := (Option.some.inj hmeta).symm
            exact ⟨h1, h2, h3⟩
          · rintro ⟨h1, h2, h3⟩
            exact ⟨⟨[t], nodes⟩, rfl, h1, h2, h3⟩
        rw [hTR, hAR]
        by_cases hlen : (trim_punctuation t).length ≤ 4
        · have hL : label_document norm initials (some ⟨[t], nodes⟩) doc_id
              doc_sha pages = none := by
            simp [label_document, hlen]
          rw [hL]
          simp only [Option.isSome_none, Bool.false_eq_true, false_iff]
          rintro ⟨⟨hlen', -⟩, -⟩
          omega
        · by_cases hA0 : (extract_gold_authors nodes).length = 0
          · have hL : label_document norm initials (some ⟨[t], nodes⟩) doc_id
                doc_sha pages = none := by
              simp [label_document, hlen, hA0]
            rw [hL]
            simp only [Option.isSome_none, Bool.false_eq_true, false_iff]
            rintro ⟨-, hne, -, -⟩
            exact hne (List.length_eq_zero.mp hA0)
          · by_cases hAlen : (extract_gold_authors nodes).length = nodes.length
            · have hg3 : ¬(trim_punctuation t = "" ∨
                  extract_gold_authors nodes = []) := by
                rintro (h | h)
                · exact hlen (by rw [h]; norm_num)
                · exact hA0 (by rw [h]; rfl)
              by_cases hcom : common_author_pages ((extract_gold_authors nodes).map
                  (author_matches_raw norm initials (pages.take MAX_PAGE_COUNT))) = []
              · have hL : label_document norm initials (some ⟨[t], nodes⟩) doc_id
                    doc_sha pages = none := by
                  simp [label_document, hlen, hA0, hAlen, hg3, hcom]
                rw [hL]
                simp only [Option.isSome_none, Bool.false_eq_true, false_iff]
                rintro ⟨-, -, -, hne⟩
                exact hne hcom
              · have hpage := min_nat_list_mem _ hcom
                have hall := common_author_pages_mem _ _ hpage
                have hnodes : nodes ≠ [] := by
                  intro h
                  apply hA0
                  rw [h]
                  rfl
                have hnex : ¬∃ a ∈ extract_gold_authors nodes,
                    min_by author_key_lt
                      (List.filter
                        (fun m => decide (m.page_number =
                          min_nat_list
                            (common_author_pages
                              (List.map (author_matches_raw norm initials
                                (List.take MAX_PAGE_COUNT pages))
                                (extract_gold_authors nodes)))))
                        (author_matches_raw norm initials
                          (List.take MAX_PAGE_COUNT pages) a)) = none := by
                  rintro ⟨a, ha, hmin⟩
                  rw [min_by_eq_none_iff] at hmin
                  have hmem' : author_matches_raw norm initials
                      (List.take MAX_PAGE_COUNT pages) a ∈
                      List.map (author_matches_raw norm initials
                        (List.take MAX_PAGE_COUNT pages))
                        (extract_gold_authors nodes) :=
                    List.mem_map_of_mem _ ha
                  have hex := (pages_with_matches_mem _ _).mp (hall _ hmem')
                  exact filter_page_ne_nil _ _ hex hmin
                cases hbt : best_title_match norm (pages.take MAX_PAGE_COUNT)
                    (trim_punctuation t) with
                | none =>
                  have hL : label_document norm initials (some ⟨[t], nodes⟩) doc_id
                      doc_sha pages = none := by
                    simp [label_document, hlen, hA0, hAlen, hg3, hcom, hbt]
                  rw [hL]
                  simp only [Option.isSome_none, Bool.false_eq_true, false_iff]
                  rintro ⟨⟨-, hex⟩, -⟩
                  have hsome := (best_title_match_isSome_iff norm
                    (pages.take MAX_PAGE_COUNT) (trim_punctuation t)).mpr hex
                  rw [hbt] at hsome
                  simp at hsome
                | some tm =>
                  have hL : (label_document norm initials (some ⟨[t], nodes⟩) doc_id
                      doc_sha pages).isSome = true := by
                    simp [label_document, hlen, hA0, hAlen, hg3, hcom, hbt,
                      hnodes, hnex]
                  refine iff_of_true hL ?_
                  refine ⟨⟨lt_of_not_le hlen, ?_⟩, ?_, hAlen, hcom⟩
                  · have hsome : (best_title_match norm (pages.take MAX_PAGE_COUNT)
                        (trim_punctuation t)).isSome := by rw [hbt]; rfl
                    exact (best_title_match_isSome_iff norm
                      (pages.take MAX_PAGE_COUNT) (trim_punctuation t)).mp hsome
                  · intro h
                    exact hA0 (by rw [h]; rfl)
            · have hL : label_document norm initials (some ⟨[t], nodes⟩) doc_id
                  doc_sha pages = none := by
                simp [label_document, hlen, hA0, hAlen]
              rw [hL]
              simp only [Option.isSome_none, Bool.false_eq_true, false_iff]
              rintro ⟨-, -, hlen2, -⟩
              exact hAlen hlen2

example : percentile_function_from_values_and_counts [1, 2] [1, 1] 1 = 1/4 := by
  norm_num [percentile_function_from_values_and_counts, cumsum, cumsumFrom,
    searchsorted_left, clipNat]

example : percentile_function_from_values_and_counts [1, 2] [1, 1] 3 = 3/4 := by
  norm_num [percentile_function_from_values_and_counts, cumsum, cumsumFrom,
    searchsorted_left, clipNat]

example : percentile_function_from_values_and_counts [5] [2] 5 = 1/2 := by
  norm_num [percentile_function_from_values_and_counts, cumsum, cumsumFrom,
    searchsorted_left, clipNat]

example : percentile_function_from_values [5, 5] 5 = 1/2 := by
  norm_num [percentile_function_from_values, percentile_function_from_values_and_counts,
    cumsum, cumsumFrom, searchsorted_left, clipNat, dedupSorted, List.mergeSort,
    List.count, List.countP, List.countP.go]

end Spv2
